import Mathlib

/-!
Verification of the Resume-Checker-AI pipeline.

This file gives a shallow embedding, in Lean 4, of the core logic of the
repository and proves (or refutes) the frozen claims about it.  Strings are
modelled as `List Char`; Python exceptions are modelled with `Except`;
external services (the LLM, the embedding API, the vector database) are
modelled as oracle parameters.  Each embedded definition is translated
directly from the named Python source function.
-/

/-! ### Text normalizer (src/pdf_processor.py, clean_text) -/

/-- A character survives `text.encode("ascii", "ignore")`: code point below 128. -/
def isAsciiChar (c : Char) : Bool := c.toNat < 128

/-- Python `str.isspace` restricted to the ASCII range (code points 9-13,
28-31 and 32).  `clean_text` only strips lines after all non-ASCII
characters have been removed, so this is the whole whitespace table the
source can ever strip. -/
def pyIsSpace (c : Char) : Bool :=
  (9 ≤ c.toNat && c.toNat ≤ 13) || (28 ≤ c.toNat && c.toNat ≤ 31) || c.toNat == 32

/-- Python `str.strip()`: drop whitespace from both ends. -/
def pyStrip (l : List Char) : List Char :=
  ((l.dropWhile pyIsSpace).reverse.dropWhile pyIsSpace).reverse

/-- Python `text.split(sep)` for a one-character separator: the list of
(possibly empty) segments between occurrences of `sep`.  Like Python's
`str.split` with an explicit separator, the empty text yields one empty
segment. -/
def splitOnChar (sep : Char) : List Char → List (List Char)
  | [] => [[]]
  | c :: rest =>
    let r := splitOnChar sep rest
    if c = sep then [] :: r
    else (c :: r.headI) :: r.tail

/-- Python `sep.join(parts)` for a one-character separator. -/
def joinWith (sep : Char) : List (List Char) → List Char
  | [] => []
  | [l] => l
  | l :: l2 :: rest => l ++ sep :: joinWith sep (l2 :: rest)

/-- The line pass of `clean_text`:
`[line.strip() for line in text.split("\n") if line.strip()]`. -/
def cleanLines (s : List Char) : List (List Char) :=
  ((splitOnChar '\n' s).map pyStrip).filter (fun l => !l.isEmpty)

/-- Embeds `clean_text` from src/pdf_processor.py: remove non-ASCII
characters, then strip every line and drop the lines that are empty after
stripping, joining the survivors with single newlines. -/
def clean_text (text : List Char) : List Char :=
  joinWith '\n' (cleanLines (text.filter isAsciiChar))

/-! ### Basic lemmas about pyStrip -/

theorem dropWhile_pyIsSpace_idem (l : List Char) :
    List.dropWhile pyIsSpace (List.dropWhile pyIsSpace l) = List.dropWhile pyIsSpace l := by
  induction l with
  | nil => rfl
  | cons c rest ih =>
    by_cases h : pyIsSpace c
    · simp [List.dropWhile_cons, h, ih]
    · simp [List.dropWhile_cons, h]

theorem head?_dropWhile_false {l : List Char} {a : Char}
    (h : (List.dropWhile pyIsSpace l).head? = some a) : pyIsSpace a = false := by
  induction l with
  | nil => simp [List.dropWhile] at h
  | cons c rest ih =>
    by_cases hc : pyIsSpace c
    · rw [List.dropWhile_cons_of_pos hc] at h
      exact ih h
    · rw [List.dropWhile_cons_of_neg hc] at h
      simp at h
      rw [← h]
      simpa using hc

theorem dropWhile_eq_self_of_head? {l : List Char}
    (h : ∀ a, l.head? = some a → pyIsSpace a = false) :
    List.dropWhile pyIsSpace l = l := by
  cases l with
  | nil => rfl
  | cons c rest =>
    have hc : pyIsSpace c = false := h c rfl
    simp [List.dropWhile_cons, hc]

theorem getLast?_dropWhile {l : List Char}
    (h : List.dropWhile pyIsSpace l ≠ []) :
    (List.dropWhile pyIsSpace l).getLast? = l.getLast? := by
  induction l with
  | nil => simp [List.dropWhile] at h
  | cons c rest ih =>
    by_cases hc : pyIsSpace c
    · rw [List.dropWhile_cons_of_pos hc] at h ⊢
      have hrest : rest ≠ [] := by
        intro he
        apply h
        simp [he, List.dropWhile]
      cases rest with
      | nil => exact absurd rfl hrest
      | cons b t => rw [ih h, List.getLast?_cons_cons]
    · rw [List.dropWhile_cons_of_neg hc]

theorem mem_pyStrip {l : List Char} {c : Char} (h : c ∈ pyStrip l) : c ∈ l := by
  unfold pyStrip at h
  rw [List.mem_reverse] at h
  have h1 := (List.dropWhile_sublist _).mem h
  rw [List.mem_reverse] at h1
  exact (List.dropWhile_sublist _).mem h1

theorem pyStrip_head? {l : List Char} {a : Char}
    (h : (pyStrip l).head? = some a) : pyIsSpace a = false := by
  unfold pyStrip at h
  rw [List.head?_reverse] at h
  have hne : List.dropWhile pyIsSpace (List.dropWhile pyIsSpace l).reverse ≠ [] := by
    intro he
    rw [he] at h
    simp at h
  rw [getLast?_dropWhile hne, List.getLast?_reverse] at h
  exact head?_dropWhile_false h

theorem pyStrip_getLast? {l : List Char} {a : Char}
    (h : (pyStrip l).getLast? = some a) : pyIsSpace a = false := by
  unfold pyStrip at h
  rw [List.getLast?_reverse] at h
  exact head?_dropWhile_false h

theorem pyStrip_idem (l : List Char) : pyStrip (pyStrip l) = pyStrip l := by
  have h1 : List.dropWhile pyIsSpace (pyStrip l) = pyStrip l :=
    dropWhile_eq_self_of_head? (fun a ha => pyStrip_head? ha)
  show ((List.dropWhile pyIsSpace (pyStrip l)).reverse.dropWhile pyIsSpace).reverse = pyStrip l
  rw [h1]
  unfold pyStrip
  rw [List.reverse_reverse, dropWhile_pyIsSpace_idem]

/-! ### Lemmas about splitOnChar and joinWith -/

theorem splitOnChar_ne_nil (sep : Char) (s : List Char) : splitOnChar sep s ≠ [] := by
  cases s with
  | nil => simp [splitOnChar]
  | cons c rest =>
    by_cases h : c = sep <;> simp [splitOnChar, h]


theorem splitOnChar_cons (sep a : Char) (t : List Char) :
    splitOnChar sep (a :: t) =
      if a = sep then [] :: splitOnChar sep t
      else (a :: (splitOnChar sep t).headI) :: (splitOnChar sep t).tail := rfl

theorem mem_splitOnChar {sep : Char} {s l : List Char} (hl : l ∈ splitOnChar sep s) :
    ∀ c ∈ l, c ∈ s ∧ c ≠ sep := by
  induction s generalizing l with
  | nil =>
    simp [splitOnChar] at hl
    simp [hl]
  | cons a rest ih =>
    rw [splitOnChar_cons] at hl
    by_cases ha : a = sep
    · rw [if_pos ha, List.mem_cons] at hl
      rcases hl with hl | hl
      · simp [hl]
      · intro c hc
        rcases ih hl c hc with ⟨h1, h2⟩
        exact ⟨List.mem_cons_of_mem _ h1, h2⟩
    · rw [if_neg ha, List.mem_cons] at hl
      cases hsp : splitOnChar sep rest with
      | nil => exact absurd hsp (splitOnChar_ne_nil sep rest)
      | cons hd tl =>
        rw [hsp] at hl
        rcases hl with hl | hl
        · intro c hc
          rw [hl, List.mem_cons] at hc
          rcases hc with hc | hc
          · constructor
            · simp [hc]
            · rw [hc]; exact ha
          · have hhd : hd ∈ splitOnChar sep rest := by
              rw [hsp]; exact List.mem_cons_self _ _
            rcases ih hhd c (by simpa using hc) with ⟨h1, h2⟩
            exact ⟨List.mem_cons_of_mem _ h1, h2⟩
        · have htl : l ∈ splitOnChar sep rest := by
            rw [hsp]; exact List.mem_cons_of_mem _ hl
          intro c hc
          rcases ih htl c hc with ⟨h1, h2⟩
          exact ⟨List.mem_cons_of_mem _ h1, h2⟩

theorem splitOnChar_append_sep (sep : Char) (xs ys : List Char) :
    splitOnChar sep (xs ++ sep :: ys) = splitOnChar sep xs ++ splitOnChar sep ys := by
  induction xs with
  | nil => simp [splitOnChar]
  | cons a xs ih =>
    rw [List.cons_append, splitOnChar_cons, splitOnChar_cons, ih]
    by_cases ha : a = sep
    · rw [if_pos ha, if_pos ha, List.cons_append]
    · rw [if_neg ha, if_neg ha]
      cases hsp : splitOnChar sep xs with
      | nil => exact absurd hsp (splitOnChar_ne_nil sep xs)
      | cons hd tl => simp

theorem splitOnChar_of_not_mem {sep : Char} {l : List Char} (h : sep ∉ l) :
    splitOnChar sep l = [l] := by
  induction l with
  | nil => rfl
  | cons a rest ih =>
    have ha : ¬a = sep := by
      intro he
      exact h (by simp [he])
    have hrest : sep ∉ rest := fun hm => h (List.mem_cons_of_mem _ hm)
    rw [splitOnChar_cons, if_neg ha, ih hrest]
    rfl

theorem splitOnChar_joinWith {sep : Char} {L : List (List Char)} (hne : L ≠ [])
    (h : ∀ l ∈ L, sep ∉ l) : splitOnChar sep (joinWith sep L) = L := by
  induction L with
  | nil => exact absurd rfl hne
  | cons l rest ih =>
    cases rest with
    | nil =>
      show splitOnChar sep l = [l]
      exact splitOnChar_of_not_mem (h l (List.mem_cons_self _ _))
    | cons l2 rest2 =>
      show splitOnChar sep (l ++ sep :: joinWith sep (l2 :: rest2)) = l :: l2 :: rest2
      rw [splitOnChar_append_sep, splitOnChar_of_not_mem (h l (List.mem_cons_self _ _))]
      rw [ih (by simp) (fun x hx => h x (List.mem_cons_of_mem _ hx))]
      rfl

theorem mem_joinWith {sep : Char} {L : List (List Char)} {c : Char}
    (h : c ∈ joinWith sep L) : c = sep ∨ ∃ l ∈ L, c ∈ l := by
  induction L with
  | nil => simp [joinWith] at h
  | cons l rest ih =>
    cases rest with
    | nil =>
      right
      exact ⟨l, List.mem_cons_self _ _, h⟩
    | cons l2 rest2 =>
      rw [show joinWith sep (l :: l2 :: rest2) = l ++ sep :: joinWith sep (l2 :: rest2)
        from rfl] at h
      rw [List.mem_append, List.mem_cons] at h
      rcases h with h | h | h
      · right; exact ⟨l, List.mem_cons_self _ _, h⟩
      · left; exact h
      · rcases ih h with h | ⟨l3, h3, hc⟩
        · left; exact h
        · right; exact ⟨l3, List.mem_cons_of_mem _ h3, hc⟩

/-! ### Facts about cleanLines and clean_text -/

theorem cleanLines_facts {s l : List Char} (hl : l ∈ cleanLines s) :
    l ≠ [] ∧ pyStrip l = l ∧ ∀ c ∈ l, c ∈ s ∧ c ≠ '\n' := by
  unfold cleanLines at hl
  rcases List.mem_filter.mp hl with ⟨hmap, hp⟩
  rcases List.mem_map.mp hmap with ⟨l0, hl0, heq⟩
  refine ⟨?_, ?_, ?_⟩
  · intro he
    rw [he] at hp
    simp at hp
  · rw [← heq]
    exact pyStrip_idem l0
  · intro c hc
    rw [← heq] at hc
    exact mem_splitOnChar hl0 c (mem_pyStrip hc)

theorem clean_text_of_joinWith {L : List (List Char)}
    (h1 : ∀ l ∈ L, l ≠ [])
    (h2 : ∀ l ∈ L, pyStrip l = l)
    (h3 : ∀ l ∈ L, ('\n' : Char) ∉ l)
    (h4 : ∀ l ∈ L, ∀ c ∈ l, isAsciiChar c = true) :
    clean_text (joinWith '\n' L) = joinWith '\n' L := by
  have hfil : (joinWith '\n' L).filter isAsciiChar = joinWith '\n' L := by
    apply List.filter_eq_self.mpr
    intro c hc
    rcases mem_joinWith hc with h | ⟨l, hlL, hcl⟩
    · rw [h]; decide
    · exact h4 l hlL c hcl
  cases L with
  | nil => decide
  | cons l0 rest =>
    unfold clean_text
    rw [hfil]
    unfold cleanLines
    rw [splitOnChar_joinWith (by simp) h3]
    have hmap : (l0 :: rest).map pyStrip = l0 :: rest := by
      rw [List.map_congr_left h2]
      simp
    rw [hmap]
    have hfil2 : (l0 :: rest).filter (fun l => !l.isEmpty) = l0 :: rest := by
      apply List.filter_eq_self.mpr
      intro l hlL
      simpa using h1 l hlL
    rw [hfil2]

/-- C4: `clean_text` returns an all-ASCII string; unless the result is the
empty string, every line of the result is non-empty (so blank or
whitespace-only input lines never survive) and carries no leading or
trailing whitespace. -/
theorem clean_text_spec (t : List Char) :
    (∀ c ∈ clean_text t, isAsciiChar c = true) ∧
    (clean_text t = [] ∨
      ∀ l ∈ splitOnChar '\n' (clean_text t), l ≠ [] ∧ pyStrip l = l) := by
  constructor
  · intro c hc
    unfold clean_text at hc
    rcases mem_joinWith hc with h | ⟨l, hlL, hcl⟩
    · rw [h]; decide
    · rcases cleanLines_facts hlL with ⟨_, _, hchars⟩
      rcases hchars c hcl with ⟨hs, _⟩
      exact (List.mem_filter.mp hs).2
  · cases hL : cleanLines (t.filter isAsciiChar) with
    | nil =>
      left
      unfold clean_text
      rw [hL]
      rfl
    | cons l0 rest =>
      right
      intro l hl
      have hnonl : ∀ x ∈ cleanLines (t.filter isAsciiChar), ('\n' : Char) ∉ x := by
        intro x hx hmem
        rcases cleanLines_facts hx with ⟨_, _, hchars⟩
        exact absurd rfl (hchars '\n' hmem).2
      unfold clean_text at hl
      rw [hL] at hl hnonl
      rw [splitOnChar_joinWith (by simp) hnonl] at hl
      have hlc : l ∈ cleanLines (t.filter isAsciiChar) := by rw [hL]; exact hl
      rcases cleanLines_facts hlc with ⟨hne, hstrip, _⟩
      exact ⟨hne, hstrip⟩

/-- Concrete input exercising `clean_text_spec`. -/
def cleanSample : List Char := ("  hi there \n\n ø x \n".toList)

/-- C4 witness: `clean_text_spec` applied at a concrete string. -/
theorem clean_text_spec_witness :
    isAsciiChar 'h' = true ∧
    (clean_text cleanSample = [] ∨
      ∀ l ∈ splitOnChar '\n' (clean_text cleanSample), l ≠ [] ∧ pyStrip l = l) :=
  ⟨(clean_text_spec cleanSample).1 'h' (by decide), (clean_text_spec cleanSample).2⟩

/-- C9: `clean_text` is idempotent. -/
theorem clean_text_idem (t : List Char) : clean_text (clean_text t) = clean_text t := by
  unfold clean_text
  apply clean_text_of_joinWith
  · intro l hl
    exact (cleanLines_facts hl).1
  · intro l hl
    exact (cleanLines_facts hl).2.1
  · intro l hl hmem
    exact absurd rfl ((cleanLines_facts hl).2.2 '\n' hmem).2
  · intro l hl c hc
    rcases (cleanLines_facts hl).2.2 c hc with ⟨hs, _⟩
    exact (List.mem_filter.mp hs).2

/-! ### Chunker (src/pdf_processor.py, chunk_text) -/

/-- Fuel-indexed loop body of `chunk_text`.  The source iterates
`for i in range(0, len(text), chunk_size)` and appends
`text[i : i + chunk_size]`; one recursion step emits the slice at the
current position and advances by `chunk_size`.  `fuel` bounds the number
of loop iterations; `chunk_text` supplies `text.length`, which is enough
whenever `chunk_size` is positive. -/
def chunkAux (chunk_size : Nat) : Nat → List Char → List (List Char)
  | _, [] => []
  | 0, _ :: _ => []
  | fuel + 1, c :: rest =>
    List.take chunk_size (c :: rest) :: chunkAux chunk_size fuel (List.drop chunk_size (c :: rest))

/-- Embeds `chunk_text` from src/pdf_processor.py.  For `chunk_size = 0`
the Python source raises `ValueError` inside `range` (outside the
function's domain); every claim about `chunk_text` assumes a positive
chunk size. -/
def chunk_text (text : List Char) (chunk_size : Nat) : List (List Char) :=
  chunkAux chunk_size text.length text

theorem chunkAux_nil_iff {k fuel : Nat} {text : List Char}
    (hf : text.length ≤ fuel) : chunkAux k fuel text = [] ↔ text = [] := by
  cases text with
  | nil => cases fuel <;> simp [chunkAux]
  | cons c rest =>
    cases fuel with
    | zero => simp at hf
    | succ f => simp [chunkAux]

theorem chunkAux_join {k : Nat} (hk : 0 < k) :
    ∀ fuel text, text.length ≤ fuel → (chunkAux k fuel text).flatten = text := by
  intro fuel
  induction fuel with
  | zero =>
    intro text hf
    cases text with
    | nil => rfl
    | cons c rest => simp at hf
  | succ f ih =>
    intro text hf
    cases text with
    | nil => rfl
    | cons c rest =>
      show (List.take k (c :: rest) :: chunkAux k f (List.drop k (c :: rest))).flatten = c :: rest
      rw [List.flatten_cons]
      rw [ih (List.drop k (c :: rest)) (by simp at hf ⊢; omega)]
      exact List.take_append_drop k (c :: rest)

theorem chunkAux_mem {k : Nat} (hk : 0 < k) :
    ∀ fuel text, text.length ≤ fuel →
      ∀ c ∈ chunkAux k fuel text, c ≠ [] ∧ c.length ≤ k := by
  intro fuel
  induction fuel with
  | zero =>
    intro text hf c hc
    cases text with
    | nil => simp [chunkAux] at hc
    | cons a rest => simp at hf
  | succ f ih =>
    intro text hf c hc
    cases text with
    | nil => simp [chunkAux] at hc
    | cons a rest =>
      rw [show chunkAux k (f + 1) (a :: rest) =
          List.take k (a :: rest) :: chunkAux k f (List.drop k (a :: rest)) from rfl,
        List.mem_cons] at hc
      rcases hc with hc | hc
      · subst hc
        constructor
        · cases k with
          | zero => exact absurd hk (by simp)
          | succ k0 => simp [List.take_cons]
        · rw [List.length_take]
          exact min_le_left _ _
      · exact ih (List.drop k (a :: rest)) (by simp at hf ⊢; omega) c hc

theorem chunkAux_dropLast {k : Nat} (hk : 0 < k) :
    ∀ fuel text, text.length ≤ fuel →
      ∀ c ∈ (chunkAux k fuel text).dropLast, c.length = k := by
  intro fuel
  induction fuel with
  | zero =>
    intro text hf c hc
    cases text with
    | nil => simp [chunkAux] at hc
    | cons a rest => simp at hf
  | succ f ih =>
    intro text hf c hc
    cases text with
    | nil => simp [chunkAux] at hc
    | cons a rest =>
      rw [show chunkAux k (f + 1) (a :: rest) =
          List.take k (a :: rest) :: chunkAux k f (List.drop k (a :: rest)) from rfl] at hc
      have hdroplen : (List.drop k (a :: rest)).length ≤ f := by
        simp at hf ⊢
        omega
      cases htail : chunkAux k f (List.drop k (a :: rest)) with
      | nil => rw [htail] at hc; simp at hc
      | cons t0 ts =>
        rw [htail, List.dropLast_cons₂, List.mem_cons] at hc
        rcases hc with hc | hc
        · subst hc
          have hne : List.drop k (a :: rest) ≠ [] := by
            intro he
            rw [(chunkAux_nil_iff hdroplen).mpr he] at htail
            exact List.noConfusion htail
          have hklen : k < (a :: rest).length := by
            by_contra hcon
            push_neg at hcon
            exact hne (List.drop_eq_nil_of_le hcon)
          rw [List.length_take]
          omega
        · rw [← htail] at hc
          exact ih (List.drop k (a :: rest)) hdroplen c hc

/-- C8: for every positive `chunk_size`, `chunk_text` loses no text (the
chunks concatenate back to the input), every chunk except possibly the
last has length exactly `chunk_size`, every chunk (in particular the last)
is non-empty, and the chunk list is empty exactly when the input is. -/
theorem chunk_text_spec (text : List Char) (k : Nat) (hk : 0 < k) :
    (chunk_text text k).flatten = text ∧
    (∀ c ∈ (chunk_text text k).dropLast, c.length = k) ∧
    (∀ c ∈ chunk_text text k, c ≠ []) ∧
    (chunk_text text k = [] ↔ text = []) := by
  refine ⟨chunkAux_join hk text.length text le_rfl,
    chunkAux_dropLast hk text.length text le_rfl,
    fun c hc => (chunkAux_mem hk text.length text le_rfl c hc).1,
    chunkAux_nil_iff le_rfl⟩

/-- C8 witness: `chunk_text_spec` at chunk size 2 on a 3-character text. -/
theorem chunk_text_spec_witness :
    0 < 2 ∧ (chunk_text ['a', 'b', 'c'] 2).flatten = ['a', 'b', 'c'] :=
  ⟨by decide, (chunk_text_spec ['a', 'b', 'c'] 2 (by decide)).1⟩

/-- C5 counterexample: with the default `chunk_size` of 500, the single
chunk of the 3-character text "abc" has length 3, not 500. -/
theorem chunk_text_len_counterexample :
    ¬ ∀ c ∈ chunk_text ['a', 'b', 'c'] 500, c.length = 500 := by
  decide

/-- C5 (amended): with the default `chunk_size` of 500 every chunk except
possibly the last has length exactly 500, and every chunk — including the
last — is non-empty and has length at most 500. -/
theorem chunk_text_default_size (text : List Char) :
    (∀ c ∈ (chunk_text text 500).dropLast, c.length = 500) ∧
    (∀ c ∈ chunk_text text 500, c ≠ [] ∧ c.length ≤ 500) :=
  ⟨chunkAux_dropLast (by decide) text.length text le_rfl,
    chunkAux_mem (by decide) text.length text le_rfl⟩

/-- C5 witness: the single chunk of "abc" under the amended claim. -/
theorem chunk_text_default_size_witness :
    (['a', 'b', 'c'] : List Char) ≠ [] ∧ (['a', 'b', 'c'] : List Char).length ≤ 500 :=
  (chunk_text_default_size ['a', 'b', 'c']).2 ['a', 'b', 'c'] (by decide)

/-! ### PDF extractor (src/pdf_processor.py, extract_text_from_pdf) -/

/-- Embeds `extract_text_from_pdf` from src/pdf_processor.py.  The pypdf
call is modelled by its observable result: the per-page extracted text
(`page.extract_text()`, the empty string for a page with no extractable
text).  The source appends each page's text plus a newline to the running
text and returns the text together with `len(reader.pages)`. -/
def extract_text_from_pdf (pages : List (List Char)) : List Char × Nat :=
  (pages.foldl (fun text p => text ++ p ++ ['\n']) [], pages.length)

theorem foldl_pages_eq (pages : List (List Char)) :
    ∀ acc, pages.foldl (fun text p => text ++ p ++ ['\n']) acc =
      acc ++ (pages.map (fun p => p ++ ['\n'])).flatten := by
  induction pages with
  | nil => intro acc; simp
  | cons p rest ih =>
    intro acc
    rw [List.foldl_cons, ih, List.map_cons, List.flatten_cons]
    simp [List.append_assoc]

theorem cleanLines_nil : cleanLines [] = [] := by decide

theorem cleanLines_append_sep (xs ys : List Char) :
    cleanLines (xs ++ '\n' :: ys) = cleanLines xs ++ cleanLines ys := by
  unfold cleanLines
  rw [splitOnChar_append_sep, List.map_append, List.filter_append]

theorem cleanLines_extract (pages : List (List Char)) :
    cleanLines ((extract_text_from_pdf pages).1.filter isAsciiChar) =
      (pages.map (fun p => cleanLines (p.filter isAsciiChar))).flatten := by
  show cleanLines ((pages.foldl (fun text p => text ++ p ++ ['\n']) []).filter isAsciiChar) = _
  rw [foldl_pages_eq pages [], List.nil_append]
  induction pages with
  | nil => simpa using cleanLines_nil
  | cons p rest ih =>
    rw [List.map_cons, List.flatten_cons, List.append_assoc,
      show (['\n'] : List Char) ++ (rest.map (fun p => p ++ ['\n'])).flatten =
        '\n' :: (rest.map (fun p => p ++ ['\n'])).flatten from rfl,
      List.filter_append]
    rw [show List.filter isAsciiChar ('\n' :: (rest.map (fun p => p ++ ['\n'])).flatten) =
        '\n' :: List.filter isAsciiChar (rest.map (fun p => p ++ ['\n'])).flatten by
      rw [List.filter_cons_of_pos (by decide)]]
    rw [cleanLines_append_sep, ih, List.map_cons, List.flatten_cons]

theorem flatten_map_filter_isEmpty (g : List Char → List (List Char)) (hg : g [] = [])
    (pages : List (List Char)) :
    ((pages.filter (fun p => !p.isEmpty)).map g).flatten = (pages.map g).flatten := by
  induction pages with
  | nil => rfl
  | cons p rest ih =>
    by_cases hp : p.isEmpty
    · rw [List.filter_cons_of_neg (by simp [hp]), List.map_cons, List.flatten_cons, ih,
        List.isEmpty_iff.mp hp, hg, List.nil_append]
    · rw [List.filter_cons_of_pos (by simp [hp]), List.map_cons, List.map_cons,
        List.flatten_cons, List.flatten_cons, ih]

/-- C6: the extractor returns the raw text together with the page count;
the count includes every page of the document, and a page with no
extractable text contributes nothing once the text is normalized — the
cleaned text is the same as if all such pages had been removed — without
any error: `extract_text_from_pdf` is total on its page list. -/
theorem extract_text_from_pdf_spec (pages : List (List Char)) :
    (extract_text_from_pdf pages).2 = pages.length ∧
    clean_text (extract_text_from_pdf pages).1 =
      clean_text (extract_text_from_pdf (pages.filter (fun p => !p.isEmpty))).1 := by
  constructor
  · rfl
  · unfold clean_text
    rw [cleanLines_extract, cleanLines_extract,
      flatten_map_filter_isEmpty (fun p => cleanLines (p.filter isAsciiChar))
        (by simpa using cleanLines_nil) pages]

/-! ### Skill verification (src/analyzer.py, ResumeAnalyzer.verify_skills) -/

/-- One row of the verification report built by `verify_skills`. -/
structure SkillReport where
  skill : String
  found : Bool
  evidence : String
deriving DecidableEq

/-- Result of the guarded nearest-neighbor lookup in `verify_skills`:
`_call_gemini_with_retry(self.vector_store.query_similar, collection,
skill, n_results=1)` wrapped in `try ... except: matches = []`.  The
lookup (retry helper plus `VectorStore.query_similar` with `n_results=1`
on the per-request collection) is an external service call, modelled as
an oracle `query` that either returns the matched chunks or raises. -/
def queryMatches (query : String → Except String (List String)) (skill : String) :
    List String :=
  match query skill with
  | Except.ok ms => ms
  | Except.error _ => []

/-- Embeds `ResumeAnalyzer.verify_skills` from src/analyzer.py: for each
skill in order, look up the top-1 evidence, treat a raising lookup as no
matches, mark `found` exactly when a match list is non-empty, and use its
first element as evidence (empty string otherwise), appending one report
per skill. -/
def verify_skills (query : String → Except String (List String))
    (skills : List String) : List SkillReport :=
  skills.foldl (fun results skill =>
    let matchList := queryMatches query skill
    let match_found := !matchList.isEmpty
    let evidence_text := matchList.headD ""
    results ++ [{ skill := skill, found := match_found, evidence := evidence_text }]) []

theorem foldl_append_singleton (f : String → SkillReport) (l : List String) :
    ∀ acc, l.foldl (fun r s => r ++ [f s]) acc = acc ++ l.map f := by
  induction l with
  | nil => intro acc; simp
  | cons s rest ih =>
    intro acc
    rw [List.foldl_cons, ih, List.map_cons]
    simp

theorem verify_skills_eq_map (query : String → Except String (List String))
    (skills : List String) :
    verify_skills query skills = skills.map (fun skill =>
      { skill := skill,
        found := !(queryMatches query skill).isEmpty,
        evidence := (queryMatches query skill).headD "" }) := by
  unfold verify_skills
  rw [foldl_append_singleton
    (fun skill =>
      { skill := skill,
        found := !(queryMatches query skill).isEmpty,
        evidence := (queryMatches query skill).headD "" }) skills []]
  rfl

/-- C1: `verify_skills` returns one report per input skill, in input
order; a report's `found` flag is set exactly when the (exception-guarded)
top-1 nearest-neighbor lookup returned a non-empty match list, and its
`evidence` is the first match when found and the empty string otherwise. -/
theorem verify_skills_spec (query : String → Except String (List String))
    (skills : List String) :
    (verify_skills query skills).length = skills.length ∧
    ∀ (i : Nat) (s : String), skills[i]? = some s →
      ∃ r : SkillReport, (verify_skills query skills)[i]? = some r ∧
        r.skill = s ∧
        (r.found = true ↔ queryMatches query s ≠ []) ∧
        r.evidence = (queryMatches query s).headD "" := by
  rw [verify_skills_eq_map]
  constructor
  · exact List.length_map skills _
  · intro i s hi
    refine ⟨{ skill := s, found := !(queryMatches query s).isEmpty, evidence := (queryMatches query s).headD "" }, ?_, rfl, ?_, rfl⟩
    · rw [List.getElem?_map, hi]
      rfl
    · cases hq : queryMatches query s <;> simp [hq]

/-- Concrete lookup oracle for the C1 witness: evidence for "python",
an exception for everything else. -/
def sampleQuery : String → Except String (List String) := fun s =>
  if s = "python" then Except.ok ["built a python service"]
  else Except.error "quota exhausted"

/-- Concrete skill list for the C1 witness. -/
def sampleSkills : List String := ["python", "rust"]

/-- C1 witness: `verify_skills_spec` applied to a concrete oracle and
skill list, at index 0. -/
theorem verify_skills_spec_witness :
    ∃ r : SkillReport, (verify_skills sampleQuery sampleSkills)[0]? = some r ∧
      r.skill = "python" ∧
      (r.found = true ↔ queryMatches sampleQuery "python" ≠ []) ∧
      r.evidence = (queryMatches sampleQuery "python").headD "" :=
  (verify_skills_spec sampleQuery sampleSkills).2 0 "python" (by decide)

/-! ### Retry helper (src/analyzer.py, ResumeAnalyzer._call_gemini_with_retry) -/

/-- Outcome of one attempt of the wrapped API call, as the retry helper
can observe it: a result, one of the two retryable exceptions
(`google.api_core.exceptions.ResourceExhausted` /
`ServiceUnavailable`), or any other exception. -/
inductive CallResult (A : Type) where
  | ok (a : A)
  | resourceExhausted (msg : String)
  | serviceUnavailable (msg : String)
  | otherError (msg : String)
deriving DecidableEq

/-- The two exception classes named in the `except (ResourceExhausted,
ServiceUnavailable)` clause. -/
def isRetryable {A : Type} : CallResult A → Bool
  | CallResult.resourceExhausted _ => true
  | CallResult.serviceUnavailable _ => true
  | _ => false

/-- Loop body of `_call_gemini_with_retry`.  `attempts n` is the outcome
of the n-th call of the wrapped function; `fuel` counts the remaining
iterations of `for attempt in range(max_retries + 1)`; `delay` is the
current backoff and `sleeps` records every `time.sleep(delay)` performed
so far.  The first component of the result is `some` of the returned
value or of the re-raised exception; `none` marks the loop falling
through, which the helper never reaches. -/
def retryGo {A : Type} (attempts : Nat → CallResult A) (max_retries : Nat) :
    Nat → Nat → Nat → List Nat → Option (CallResult A) × List Nat
  | 0, _, _, sleeps => (none, sleeps)
  | fuel + 1, attempt, delay, sleeps =>
    match attempts attempt with
    | CallResult.ok a => (some (CallResult.ok a), sleeps)
    | CallResult.resourceExhausted m =>
      if attempt = max_retries then (some (CallResult.resourceExhausted m), sleeps)
      else retryGo attempts max_retries fuel (attempt + 1) (delay * 2) (sleeps ++ [delay])
    | CallResult.serviceUnavailable m =>
      if attempt = max_retries then (some (CallResult.serviceUnavailable m), sleeps)
      else retryGo attempts max_retries fuel (attempt + 1) (delay * 2) (sleeps ++ [delay])
    | CallResult.otherError m => (some (CallResult.otherError m), sleeps)

/-- Embeds `ResumeAnalyzer._call_gemini_with_retry` from src/analyzer.py:
`max_retries = 3`, initial `delay = 2`, up to `max_retries + 1` loop
iterations, doubling the delay after each retryable failure. -/
def call_gemini_with_retry {A : Type} (attempts : Nat → CallResult A) :
    Option (CallResult A) × List Nat :=
  retryGo attempts 3 (3 + 1) 0 2 []

theorem retryGo_ok {A : Type} {attempts : Nat → CallResult A} {mr fuel attempt delay : Nat}
    {sleeps : List Nat} {a : A} (h : attempts attempt = CallResult.ok a) :
    retryGo attempts mr (fuel + 1) attempt delay sleeps = (some (CallResult.ok a), sleeps) := by
  simp [retryGo, h]

theorem retryGo_other {A : Type} {attempts : Nat → CallResult A} {mr fuel attempt delay : Nat}
    {sleeps : List Nat} {m : String} (h : attempts attempt = CallResult.otherError m) :
    retryGo attempts mr (fuel + 1) attempt delay sleeps =
      (some (CallResult.otherError m), sleeps) := by
  simp [retryGo, h]

theorem retryGo_retry_step {A : Type} {attempts : Nat → CallResult A}
    {mr fuel attempt delay : Nat} {sleeps : List Nat}
    (h : isRetryable (attempts attempt) = true) (hne : attempt ≠ mr) :
    retryGo attempts mr (fuel + 1) attempt delay sleeps =
      retryGo attempts mr fuel (attempt + 1) (delay * 2) (sleeps ++ [delay]) := by
  cases hc : attempts attempt with
  | ok a => rw [hc] at h; simp [isRetryable] at h
  | resourceExhausted m => simp [retryGo, hc, hne]
  | serviceUnavailable m => simp [retryGo, hc, hne]
  | otherError m => rw [hc] at h; simp [isRetryable] at h

theorem retryGo_last {A : Type} {attempts : Nat → CallResult A}
    {mr fuel delay : Nat} {sleeps : List Nat}
    (h : isRetryable (attempts mr) = true) :
    retryGo attempts mr (fuel + 1) mr delay sleeps = (some (attempts mr), sleeps) := by
  cases hc : attempts mr with
  | ok a => rw [hc] at h; simp [isRetryable] at h
  | resourceExhausted m => simp [retryGo, hc]
  | serviceUnavailable m => simp [retryGo, hc]
  | otherError m => rw [hc] at h; simp [isRetryable] at h

theorem retryGo_congr {A : Type} {f g : Nat → CallResult A} {mr : Nat} :
    ∀ fuel attempt delay sleeps,
      (∀ j, attempt ≤ j → j < attempt + fuel → f j = g j) →
      retryGo f mr fuel attempt delay sleeps = retryGo g mr fuel attempt delay sleeps := by
  intro fuel
  induction fuel with
  | zero => intro attempt delay sleeps h; rfl
  | succ fu ih =>
    intro attempt delay sleeps h
    have h0 : f attempt = g attempt := h attempt le_rfl (by omega)
    cases hg : g attempt with
    | ok a => simp [retryGo, h0, hg]
    | resourceExhausted m =>
      by_cases hne : attempt = mr
      · subst hne
        simp [retryGo, h0, hg]
      · simp only [retryGo, h0, hg, if_neg hne]
        exact ih (attempt + 1) (delay * 2) (sleeps ++ [delay])
          (fun j h1 h2 => h j (by omega) (by omega))
    | serviceUnavailable m =>
      by_cases hne : attempt = mr
      · subst hne
        simp [retryGo, h0, hg]
      · simp only [retryGo, h0, hg, if_neg hne]
        exact ih (attempt + 1) (delay * 2) (sleeps ++ [delay])
          (fun j h1 h2 => h j (by omega) (by omega))
    | otherError m => simp [retryGo, h0, hg]

/-- C2: the retry helper returns a successful attempt's result unchanged;
it retries only on the two retryable exception types, sleeping 2, then 4,
then 8 seconds (doubling each retry); any other exception is re-raised at
once with no further sleeps; after the fourth attempt the last retryable
exception is re-raised; and the result depends only on the first four
attempts (at most 4 calls are made). -/
theorem call_gemini_with_retry_spec {A : Type} (attempts : Nat → CallResult A) :
    (∀ i, i ≤ 3 → (∀ j, j < i → isRetryable (attempts j) = true) →
      (∀ a, attempts i = CallResult.ok a →
        call_gemini_with_retry attempts =
          (some (CallResult.ok a), List.take i [2, 4, 8])) ∧
      (∀ m, attempts i = CallResult.otherError m →
        call_gemini_with_retry attempts =
          (some (CallResult.otherError m), List.take i [2, 4, 8]))) ∧
    ((∀ j, j ≤ 3 → isRetryable (attempts j) = true) →
      call_gemini_with_retry attempts = (some (attempts 3), [2, 4, 8])) ∧
    (∀ attempts2 : Nat → CallResult A, (∀ j, j ≤ 3 → attempts2 j = attempts j) →
      call_gemini_with_retry attempts2 = call_gemini_with_retry attempts) := by
  refine ⟨?_, ?_, ?_⟩
  · intro i hi hj
    interval_cases i
    · exact ⟨fun a ha => retryGo_ok ha, fun m hm => retryGo_other hm⟩
    · have h0 : isRetryable (attempts 0) = true := hj 0 (by omega)
      constructor
      · intro a ha
        calc call_gemini_with_retry attempts
            = retryGo attempts 3 3 1 4 [2] := retryGo_retry_step h0 (by omega)
          _ = (some (CallResult.ok a), [2]) := retryGo_ok ha
      · intro m hm
        calc call_gemini_with_retry attempts
            = retryGo attempts 3 3 1 4 [2] := retryGo_retry_step h0 (by omega)
          _ = (some (CallResult.otherError m), [2]) := retryGo_other hm
    · have h0 : isRetryable (attempts 0) = true := hj 0 (by omega)
      have h1 : isRetryable (attempts 1) = true := hj 1 (by omega)
      constructor
      · intro a ha
        calc call_gemini_with_retry attempts
            = retryGo attempts 3 3 1 4 [2] := retryGo_retry_step h0 (by omega)
          _ = retryGo attempts 3 2 2 8 [2, 4] := retryGo_retry_step h1 (by omega)
          _ = (some (CallResult.ok a), [2, 4]) := retryGo_ok ha
      · intro m hm
        calc call_gemini_with_retry attempts
            = retryGo attempts 3 3 1 4 [2] := retryGo_retry_step h0 (by omega)
          _ = retryGo attempts 3 2 2 8 [2, 4] := retryGo_retry_step h1 (by omega)
          _ = (some (CallResult.otherError m), [2, 4]) := retryGo_other hm
    · have h0 : isRetryable (attempts 0) = true := hj 0 (by omega)
      have h1 : isRetryable (attempts 1) = true := hj 1 (by omega)
      have h2 : isRetryable (attempts 2) = true := hj 2 (by omega)
      constructor
      · intro a ha
        calc call_gemini_with_retry attempts
            = retryGo attempts 3 3 1 4 [2] := retryGo_retry_step h0 (by omega)
          _ = retryGo attempts 3 2 2 8 [2, 4] := retryGo_retry_step h1 (by omega)
          _ = retryGo attempts 3 1 3 16 [2, 4, 8] := retryGo_retry_step h2 (by omega)
          _ = (some (CallResult.ok a), [2, 4, 8]) := retryGo_ok ha
      · intro m hm
        calc call_gemini_with_retry attempts
            = retryGo attempts 3 3 1 4 [2] := retryGo_retry_step h0 (by omega)
          _ = retryGo attempts 3 2 2 8 [2, 4] := retryGo_retry_step h1 (by omega)
          _ = retryGo attempts 3 1 3 16 [2, 4, 8] := retryGo_retry_step h2 (by omega)
          _ = (some (CallResult.otherError m), [2, 4, 8]) := retryGo_other hm
  · intro hj
    calc call_gemini_with_retry attempts
        = retryGo attempts 3 3 1 4 [2] := retryGo_retry_step (hj 0 (by omega)) (by omega)
      _ = retryGo attempts 3 2 2 8 [2, 4] := retryGo_retry_step (hj 1 (by omega)) (by omega)
      _ = retryGo attempts 3 1 3 16 [2, 4, 8] := retryGo_retry_step (hj 2 (by omega)) (by omega)
      _ = (some (attempts 3), [2, 4, 8]) := retryGo_last (hj 3 (by omega))
  · intro attempts2 h
    exact retryGo_congr (3 + 1) 0 2 [] (fun j h1 h2 => h j (by omega))

/-- Concrete attempt sequence for the C2 witness: one transient failure,
then success. -/
def sampleAttempts : Nat → CallResult Nat := fun i =>
  if i = 0 then CallResult.serviceUnavailable "backend overloaded" else CallResult.ok 7

/-- C2 witness: one retry with a 2-second sleep, then the successful
result is returned. -/
theorem call_gemini_with_retry_spec_witness :
    call_gemini_with_retry sampleAttempts = (some (CallResult.ok 7), List.take 1 [2, 4, 8]) :=
  ((call_gemini_with_retry_spec sampleAttempts).1 1 (by decide) (by decide)).1 7 (by decide)

/-! ### LLM-call error handling (src/analyzer.py, extract_skills /
analyze_recruiter_heuristics / generate_report) -/

/-- Parsed shape of the skill-extraction response:
`{"hard_skills": [...], "soft_skills": [...]}`. -/
structure SkillsDict where
  hard_skills : List String
  soft_skills : List String
deriving DecidableEq

/-- Parsed shape of the recruiter-heuristics response: a
`seven_point_summary` JSON object (a list of key/boolean pairs, empty for
the fallback `{}`), `heuristic_warnings` and `content_critique`. -/
structure HeuristicsDict where
  seven_point_summary : List (String × Bool)
  heuristic_warnings : List String
  content_critique : List String
deriving DecidableEq

/-- Embeds `ResumeAnalyzer.extract_skills` from src/analyzer.py.
`clientOk` models `if not client: raise ValueError(...)`; `llm` models the
composite outcome of the retried `generate_content` call followed by
`json.loads` (an `Except.error` for any exception from either).  The
`try/except` around that composite returns the empty-skills fallback on
any failure. -/
def extract_skills (clientOk : Bool) (llm : Except String SkillsDict) :
    Except String SkillsDict :=
  if clientOk = false then Except.error "Gemini Client not initialized."
  else
    match llm with
    | Except.ok d => Except.ok d
    | Except.error _ => Except.ok { hard_skills := [], soft_skills := [] }

/-- Embeds `ResumeAnalyzer.analyze_recruiter_heuristics` from
src/analyzer.py: same guard and retry/parse structure as
`extract_skills`, with the empty-heuristics fallback on any failure. -/
def analyze_recruiter_heuristics (clientOk : Bool) (llm : Except String HeuristicsDict) :
    Except String HeuristicsDict :=
  if clientOk = false then Except.error "Gemini Client not initialized."
  else
    match llm with
    | Except.ok d => Except.ok d
    | Except.error _ =>
      Except.ok { seven_point_summary := [], heuristic_warnings := [], content_critique := [] }

/-- Embeds `ResumeAnalyzer.generate_report` from src/analyzer.py: same
guard, but the `except` clause re-raises the exception so the caller
handles it. -/
def generate_report {A : Type} (clientOk : Bool) (llm : Except String A) :
    Except String A :=
  if clientOk = false then Except.error "Gemini Client not initialized."
  else
    match llm with
    | Except.ok r => Except.ok r
    | Except.error e => Except.error e

/-- C10: with an initialized client, `extract_skills` never propagates an
exception and answers the empty-skills fallback on any failure;
`generate_report` re-raises its call's exception unchanged; and
`analyze_recruiter_heuristics` answers the empty-heuristics fallback on
any failure. -/
theorem analyzer_error_handling_spec :
    (∀ llm : Except String SkillsDict, ∃ d, extract_skills true llm = Except.ok d) ∧
    (∀ e : String,
      extract_skills true (Except.error e) =
        Except.ok { hard_skills := [], soft_skills := [] }) ∧
    (∀ (A : Type) (e : String),
      generate_report true (Except.error e : Except String A) = Except.error e) ∧
    (∀ e : String,
      analyze_recruiter_heuristics true (Except.error e) =
        Except.ok { seven_point_summary := [], heuristic_warnings := [], content_critique := [] }) := by
  refine ⟨?_, ?_, ?_, ?_⟩
  · intro llm
    cases llm with
    | ok d => exact ⟨d, rfl⟩
    | error e => exact ⟨{ hard_skills := [], soft_skills := [] }, rfl⟩
  · intro e; rfl
  · intro A e; rfl
  · intro e; rfl

/-! ### Per-request collection cleanup (src/main.py analyze_resume,
src/gui_app.py AnalysisWorker.perform_analysis) -/

/-- Observable vector-store actions of one request. -/
inductive ReqEvent where
  | createColl
  | deleteColl
deriving DecidableEq

/-- Embeds the `/analyze` handler `analyze_resume` from src/main.py.
External effects are oracle parameters: `pdfRes` is the outcome of
`file.read()` plus `extract_text_from_pdf` (a raised `ValueError` becomes
`Except.error`), `createRes` the outcome of
`VectorStore.create_collection_from_chunks`, and `analyzeRes` the outcome
of `ResumeAnalyzer.analyze`.  The handler cleans and chunks the text,
rejects an empty chunk list, runs the analysis inside
`try ... finally: vs.delete_collection(...)`, and converts any exception
into an HTTP 500 error (including the `HTTPException(400)` for empty
chunks, which the outer `except Exception` re-wraps).  The second
component records the vector-store actions performed. -/
def analyze_resume {A : Type} (pdfRes : Except String (List Char × Nat))
    (createRes : Except String Unit) (analyzeRes : Except String A) :
    Except (Nat × String) A × List ReqEvent :=
  match pdfRes with
  | Except.error e => (Except.error (500, e), [])
  | Except.ok (raw_text, _page_count) =>
    let cleaned_text := clean_text raw_text
    let chunks := chunk_text cleaned_text 500
    if chunks.isEmpty then
      (Except.error (500, "Could not extract text from PDF."), [])
    else
      match createRes with
      | Except.error e => (Except.error (500, e), [])
      | Except.ok _ =>
        match analyzeRes with
        | Except.ok r => (Except.ok r, [ReqEvent.createColl, ReqEvent.deleteColl])
        | Except.error e => (Except.error (500, e), [ReqEvent.createColl, ReqEvent.deleteColl])

/-- Embeds `AnalysisWorker.perform_analysis` from src/gui_app.py: read
the file, extract, clean and chunk, reject empty chunks, create the
collection (its own `try/except` re-wraps the message), then analyze
inside `try ... finally` where the `finally` deletes the collection
whenever it was bound. -/
def perform_analysis {A : Type} (readRes : Except String (List Char))
    (pdfRes : Except String (List Char × Nat)) (createRes : Except String Unit)
    (analyzeRes : Except String A) : Except String A × List ReqEvent :=
  match readRes with
  | Except.error e => (Except.error ("Failed to read file: " ++ e), [])
  | Except.ok _content =>
    match pdfRes with
    | Except.error e => (Except.error ("Failed to extract text from PDF: " ++ e), [])
    | Except.ok (raw_text, _page_count) =>
      let cleaned_text := clean_text raw_text
      let chunks := chunk_text cleaned_text 500
      if chunks.isEmpty then
        (Except.error "Could not extract text from PDF (empty chunks).", [])
      else
        match createRes with
        | Except.error e => (Except.error ("Failed to initialize Vector Store: " ++ e), [])
        | Except.ok _ =>
          match analyzeRes with
          | Except.ok r => (Except.ok r, [ReqEvent.createColl, ReqEvent.deleteColl])
          | Except.error e => (Except.error e, [ReqEvent.createColl, ReqEvent.deleteColl])

/-- C3: in both request handlers, whenever the per-request collection was
successfully created, it is also deleted — on the returning path and on
every raising path alike. -/
theorem collection_cleanup_spec (A : Type) (pdfRes : Except String (List Char × Nat))
    (readRes : Except String (List Char)) (createRes : Except String Unit)
    (analyzeRes : Except String A) :
    (ReqEvent.createColl ∈ (analyze_resume pdfRes createRes analyzeRes).2 →
      ReqEvent.deleteColl ∈ (analyze_resume pdfRes createRes analyzeRes).2) ∧
    (ReqEvent.createColl ∈ (perform_analysis readRes pdfRes createRes analyzeRes).2 →
      ReqEvent.deleteColl ∈ (perform_analysis readRes pdfRes createRes analyzeRes).2) := by
  constructor
  · intro hc
    cases pdfRes with
    | error e => simp [analyze_resume] at hc
    | ok raw =>
      rcases raw with ⟨raw_text, page_count⟩
      by_cases hch : (chunk_text (clean_text raw_text) 500).isEmpty
      · simp [analyze_resume, hch] at hc
      · cases createRes with
        | error e => simp [analyze_resume, hch] at hc
        | ok u =>
          cases analyzeRes with
          | ok r => simp [analyze_resume, hch]
          | error e => simp [analyze_resume, hch]
  · intro hc
    cases readRes with
    | error e => simp [perform_analysis] at hc
    | ok content =>
      cases pdfRes with
      | error e => simp [perform_analysis] at hc
      | ok raw =>
        rcases raw with ⟨raw_text, page_count⟩
        by_cases hch : (chunk_text (clean_text raw_text) 500).isEmpty
        · simp [perform_analysis, hch] at hc
        · cases createRes with
          | error e => simp [perform_analysis, hch] at hc
          | ok u =>
            cases analyzeRes with
            | ok r => simp [perform_analysis, hch]
            | error e => simp [perform_analysis, hch]

/-- C3 witness: a request whose analysis raises still deletes the
collection it created, in both handlers. -/
theorem collection_cleanup_spec_witness :
    ReqEvent.deleteColl ∈
      (analyze_resume (Except.ok ("resume text".toList, 1)) (Except.ok ())
        (Except.error "boom" : Except String Unit)).2 ∧
    ReqEvent.deleteColl ∈
      (perform_analysis (Except.ok "resume text".toList)
        (Except.ok ("resume text".toList, 1)) (Except.ok ())
        (Except.error "boom" : Except String Unit)).2 :=
  ⟨(collection_cleanup_spec Unit (Except.ok ("resume text".toList, 1))
      (Except.ok "resume text".toList) (Except.ok ()) (Except.error "boom")).1 (by decide),
    (collection_cleanup_spec Unit (Except.ok ("resume text".toList, 1))
      (Except.ok "resume text".toList) (Except.ok ()) (Except.error "boom")).2 (by decide)⟩

/-! ### Orchestration (src/analyzer.py, ResumeAnalyzer.analyze) -/

/-- Dataflow of `ResumeAnalyzer.analyze`: the verification stage consumes
the extraction result (`extracted.get("hard_skills", [])` then
`.get("soft_skills", [])`), and the synthesis stage consumes both
verification results together with the heuristics result. -/
def analyze {A : Type} (extracted : SkillsDict) (heuristics : HeuristicsDict)
    (verify : List String → List SkillReport)
    (report : List SkillReport → List SkillReport → HeuristicsDict → A) : A :=
  let hard_skills_verified := verify extracted.hard_skills
  let soft_skills_verified := verify extracted.soft_skills
  report hard_skills_verified soft_skills_verified heuristics

/-- Calls issued by `ResumeAnalyzer.analyze`, one event per awaited
stage invocation. -/
inductive AEvent where
  | extractCall
  | heurCall
  | verifyHardCall (skill : String)
  | verifySoftCall (skill : String)
  | reportCall
deriving DecidableEq

/-- Control point of `ResumeAnalyzer.analyze`, given the hard and soft
skill lists produced by the extraction stage: inside
`asyncio.gather(extracted_task, heuristics_task)` with neither, only the
extraction, or only the heuristics task completed; in the sequential
verification loops with the remaining hard and soft skills; or returned. -/
inductive APhase where
  | start
  | extractDone
  | heurDone
  | verifying (hl sl : List String)
  | finished
deriving DecidableEq

/-- Small-step transitions of `ResumeAnalyzer.analyze`, modelled from its
await structure: the two gathered tasks complete in either order
(`asyncio.gather` imposes none); once both are joined, `verify_skills`
queries each hard skill in order, then each soft skill in order, and only
then is `generate_report` called. -/
inductive AStep (hard soft : List String) : APhase → AEvent → APhase → Prop where
  | extractFirst : AStep hard soft APhase.start AEvent.extractCall APhase.extractDone
  | heurFirst : AStep hard soft APhase.start AEvent.heurCall APhase.heurDone
  | heurSecond : AStep hard soft APhase.extractDone AEvent.heurCall (APhase.verifying hard soft)
  | extractSecond : AStep hard soft APhase.heurDone AEvent.extractCall (APhase.verifying hard soft)
  | verifyHard (s : String) (hl sl : List String) :
      AStep hard soft (APhase.verifying (s :: hl) sl) (AEvent.verifyHardCall s)
        (APhase.verifying hl sl)
  | verifySoft (s : String) (sl : List String) :
      AStep hard soft (APhase.verifying [] (s :: sl)) (AEvent.verifySoftCall s)
        (APhase.verifying [] sl)
  | reportStep : AStep hard soft (APhase.verifying [] []) AEvent.reportCall APhase.finished

/-- Reflexive-transitive closure of `AStep`, recording the event trace. -/
inductive ATrace (hard soft : List String) : APhase → List AEvent → APhase → Prop where
  | nil (p : APhase) : ATrace hard soft p [] p
  | cons {p q r : APhase} {e : AEvent} {tr : List AEvent} :
      AStep hard soft p e q → ATrace hard soft q tr r → ATrace hard soft p (e :: tr) r

theorem atrace_finished_nil {hard soft : List String} {tr : List AEvent} {q : APhase}
    (h : ATrace hard soft APhase.finished tr q) : tr = [] := by
  cases h with
  | nil => rfl
  | cons hs _ => cases hs

theorem atrace_verifying_shape {hard soft : List String} :
    ∀ (p : APhase) (tr : List AEvent) (q : APhase), ATrace hard soft p tr q →
      q = APhase.finished → ∀ hl sl, p = APhase.verifying hl sl →
      tr = hl.map AEvent.verifyHardCall ++ sl.map AEvent.verifySoftCall ++ [AEvent.reportCall] := by
  intro p tr q h
  induction h with
  | nil p0 =>
    intro he hl sl hp
    rw [he] at hp
    cases hp
  | cons hs h2 ih =>
    intro he hl sl hp
    cases hs with
    | extractFirst => cases hp
    | heurFirst => cases hp
    | heurSecond => cases hp
    | extractSecond => cases hp
    | verifyHard s hl2 sl2 =>
      cases hp
      rw [ih he _ _ rfl]
      rfl
    | verifySoft s sl2 =>
      cases hp
      rw [ih he _ _ rfl]
      rfl
    | reportStep =>
      cases hp
      subst he
      rw [atrace_finished_nil h2]
      rfl

theorem atrace_verifying_build (hard soft : List String) :
    ∀ hl sl, ATrace hard soft (APhase.verifying hl sl)
      (hl.map AEvent.verifyHardCall ++ sl.map AEvent.verifySoftCall ++ [AEvent.reportCall])
      APhase.finished := by
  intro hl
  induction hl with
  | nil =>
    intro sl
    induction sl with
    | nil => exact ATrace.cons AStep.reportStep (ATrace.nil _)
    | cons s sl2 ih => exact ATrace.cons (AStep.verifySoft s sl2) ih
  | cons s hl2 ih =>
    intro sl
    exact ATrace.cons (AStep.verifyHard s hl2 sl) (ih sl)

/-- C7: a complete run of `ResumeAnalyzer.analyze` issues exactly these
traces: the extraction and heuristics calls in either order (the two
gathered tasks are independent), then one verification query per
extracted hard skill in order, then one per soft skill in order, and
finally the synthesis call — nothing else; moreover the synthesis call
consumes the two verification results together with the heuristics
result, as `analyze` shows. -/
theorem analyze_stage_order_spec (hard soft : List String) (tr : List AEvent) :
    (ATrace hard soft APhase.start tr APhase.finished ↔
      (tr = AEvent.extractCall :: AEvent.heurCall ::
          (hard.map AEvent.verifyHardCall ++ soft.map AEvent.verifySoftCall ++
            [AEvent.reportCall]) ∨
       tr = AEvent.heurCall :: AEvent.extractCall ::
          (hard.map AEvent.verifyHardCall ++ soft.map AEvent.verifySoftCall ++
            [AEvent.reportCall]))) ∧
    (∀ (A : Type) (extracted : SkillsDict) (heuristics : HeuristicsDict)
      (verify : List String → List SkillReport)
      (report : List SkillReport → List SkillReport → HeuristicsDict → A),
      analyze extracted heuristics verify report =
        report (verify extracted.hard_skills) (verify extracted.soft_skills) heuristics) := by
  constructor
  · constructor
    · intro h
      cases h with
      | cons hs h2 =>
        cases hs with
        | extractFirst =>
          cases h2 with
          | cons hs2 h3 =>
            cases hs2
            left
            rw [atrace_verifying_shape _ _ _ h3 rfl hard soft rfl]
        | heurFirst =>
          cases h2 with
          | cons hs2 h3 =>
            cases hs2
            right
            rw [atrace_verifying_shape _ _ _ h3 rfl hard soft rfl]
    · intro h
      rcases h with h | h
      · rw [h]
        exact ATrace.cons AStep.extractFirst
          (ATrace.cons AStep.heurSecond (atrace_verifying_build hard soft hard soft))
      · rw [h]
        exact ATrace.cons AStep.heurFirst
          (ATrace.cons AStep.extractSecond (atrace_verifying_build hard soft hard soft))
  · intro A extracted heuristics verify report
    rfl
